import Mathlib

/-!
Verification of the STaBioM comparison engine (harmonisation and statistical
analysis of microbiome abundance tables).

The definitions below are a shallow embedding of the Python sources:

* `src/shiny-ui/compare/src/harmonise.py` (`Harmoniser`): taxon-name cleaning,
  rank extraction from lineage strings, table orientation, rank aggregation,
  taxon/sample alignment, relative and CLR normalisation, prevalence and
  mean-abundance filtering, and the top-level `harmonise` entry point.
* `src/main/compare/src/analysis.py` (`ComparisonAnalyzer`): alpha diversity
  (Shannon, observed richness, Pielou evenness), Bray-Curtis beta-diversity
  distances, PCoA variance-explained post-processing, the PERMANOVA-style
  permutation p-value, and Benjamini-Hochberg FDR correction.

Numeric pandas/numpy values are modelled by an arbitrary linear ordered field
(instantiated at `ℚ` for executable witnesses, and at `ℝ` where the source
applies the natural logarithm).  Python strings are modelled as `List Char`
(wrapped in `String` where convenient), pandas DataFrames as `PyTable`:
an index (row labels), column labels, and a row-major matrix of values.
-/

/-! ## Python string helpers (`str.strip`, `re.sub`, `str.rstrip`) -/

/-- The whitespace characters recognised by Python's `str.strip()` and the
regex class `\s` (ASCII range). -/
def isPySpace (c : Char) : Bool :=
  c = ' ' || c = '\t' || c = '\n' || c = '\x0d' || c = '\x0b' || c = '\x0c'

/-- Python `s.strip()`: remove leading and trailing whitespace. -/
def pyStrip (s : List Char) : List Char :=
  ((s.dropWhile isPySpace).reverse.dropWhile isPySpace).reverse

/-- Python `s.rstrip("_")`: remove trailing underscores. -/
def rstripUnderscores (s : List Char) : List Char :=
  (s.reverse.dropWhile (fun c => c = '_')).reverse

/-- Worker for `re.sub(r"\s+", " ", s)`: `sawSpace` records whether the
previous character belonged to a whitespace run already replaced. -/
def collapseGo : Bool → List Char → List Char
  | _, [] => []
  | sawSpace, c :: rest =>
    if isPySpace c then
      if sawSpace then collapseGo true rest else ' ' :: collapseGo true rest
    else
      c :: collapseGo false rest

/-- `re.sub(r"\s+", " ", s)`: collapse each whitespace run to one space. -/
def collapseWS (s : List Char) : List Char := collapseGo false s

/-! ## Harmoniser: rank prefixes and taxon-name cleaning -/

/-- `Harmoniser.RANK_PREFIXES`, in Python dict-iteration (insertion) order. -/
def rankPfxTable : List (String × String) :=
  [("domain", "d__"), ("kingdom", "k__"), ("phylum", "p__"), ("class", "c__"),
   ("order", "o__"), ("family", "f__"), ("genus", "g__"), ("species", "s__")]

/-- The rank-prefix strings in dict-iteration order (`RANK_PREFIXES.values()`),
as character lists. -/
def rankPfxList : List (List Char) := rankPfxTable.map (fun kv => kv.2.toList)

/-- `Harmoniser.RANK_ORDER`. -/
def rankOrder : List String :=
  ["domain", "kingdom", "phylum", "class", "order", "family", "genus", "species"]

/-- The `"Unclassified"` placeholder label. -/
def unclassifiedLabel : List Char := "Unclassified".toList

/-- The prefix-stripping loop of `Harmoniser._clean_taxon_names`: each of the
eight rank prefixes is tested once, in order, against the current value. -/
def stripRankPfxs (s : List Char) : List Char :=
  rankPfxList.foldl (fun acc p => if p.isPrefixOf acc then acc.drop p.length else acc) s

/-- `Harmoniser._clean_taxon_names`, per column name: strip whitespace, strip
rank prefixes, trim trailing underscores, collapse whitespace runs, and map
empty / `"__"` results to `"Unclassified"`. -/
def cleanName (s : List Char) : List Char :=
  let c1 := pyStrip s
  let c2 := stripRankPfxs c1
  let c3 := rstripUnderscores c2
  let c4 := collapseWS c3
  if c4 = [] ∨ c4 = ['_', '_'] then unclassifiedLabel else c4

/-- `cleanName` lifted to `String` (pandas column labels). -/
def cleanNameStr (s : String) : String := String.mk (cleanName s.toList)

/-! ## Rank extraction from lineage strings (`Harmoniser._extract_rank`) -/

/-- `re.split(r"[;|]", lineage)`: split on `;` or `|`, keeping empty parts. -/
def splitSeps : List Char → List (List Char)
  | [] => [[]]
  | c :: rest =>
    if c = ';' ∨ c = '|' then [] :: splitSeps rest
    else
      match splitSeps rest with
      | [] => [[c]]
      | h :: t => (c :: h) :: t

/-- `RANK_PREFIXES.get(rank, "")`. -/
def rankPfxOf (rank : String) : List Char :=
  ((rankPfxTable.lookup rank).getD "").toList

/-- The fallback loops of `_extract_rank` strip at most one matching rank
prefix from a part (the loop there exits with `break` on the first match). -/
def stripOneRankPfx (s : List Char) : List Char :=
  match rankPfxList.find? (fun p => p.isPrefixOf s) with
  | some p => s.drop p.length
  | none => s

/-- `Harmoniser._extract_rank`: find the first `;`/`|`-separated token carrying
the target rank's prefix; otherwise fall back to positional indexing into the
rank order; otherwise scan the tokens backward for a usable name; otherwise
return `"Unclassified"`. -/
def extractRank (lineage rank : String) : String :=
  let pfx := rankPfxOf rank
  let parts := splitSeps lineage.toList
  match parts.findSome? (fun part =>
      let p := pyStrip part
      if pfx.isPrefixOf p then
        let name := p.drop pfx.length
        if name ≠ [] ∧ name ≠ ['_', '_'] then some (String.mk name) else none
      else none) with
  | some name => name
  | none =>
    let viaIdx : Option String :=
      if rank ∈ rankOrder then
        let k := rankOrder.indexOf rank
        if k < parts.length then
          let part := stripOneRankPfx (pyStrip (parts.getD k []))
          if part ≠ [] ∧ part ≠ ['_', '_'] then some (String.mk part) else none
        else none
      else none
    match viaIdx with
    | some name => name
    | none =>
      match parts.reverse.findSome? (fun part =>
          let q := stripOneRankPfx (pyStrip part)
          if q ≠ [] ∧ q ≠ ['_', '_'] ∧ q ≠ "unclassified".toList then
            some (String.mk q)
          else none) with
      | some name => name
      | none => "Unclassified"

/-! ## The pandas data model -/

/-- A pandas `DataFrame`: row labels, column labels, and a row-major value
matrix. -/
structure PyTable (α : Type) where
  index : List String
  columns : List String
  values : List (List α)
deriving DecidableEq, Repr

/-- `run_parser.RunData`, restricted to the fields `harmonise` reads. -/
structure RunData (α : Type) where
  runId : String
  abundanceTable : Option (PyTable α)
  taxonomy : Option (List (String × String))

/-- The `Harmoniser` configuration (constructor arguments). -/
structure HarmoniserConfig (α : Type) where
  rank : String
  norm : String
  sampleAlign : String
  minPrevalence : α
  minMeanAbundance : α

/-- The two fatal failure modes of `Harmoniser.harmonise` (both surface as
`ValueError` in Python, distinguished by their message; the specification
names them `ConfigurationError` and `DataError`). -/
inductive HarmoniseError where
  | configurationError
  | dataError
deriving DecidableEq, Repr

/-- `HarmonisedData`, restricted to the aligned matrix and run labels. -/
structure HarmonisedData (α : Type) where
  alignedAbundance : PyTable α
  runLabels : List String

section TableOps

variable {α : Type} [LinearOrderedField α]

/-- `df.T`: swap the index/columns and transpose the value matrix. -/
def transposePy (t : PyTable α) : PyTable α :=
  ⟨t.columns, t.index, t.values.transpose⟩

/-- Lines 108-111 of `harmonise.py`: transpose a table that has more rows than
columns (`df.shape[0] > df.shape[1]`), on the heuristic that its rows are
features rather than samples. -/
def orientPy (t : PyTable α) : PyTable α :=
  if t.columns.length < t.index.length then transposePy t else t

/-- Column `j` of the value matrix. -/
def colOf (t : PyTable α) (j : ℕ) : List α := t.values.map (fun r => r.getD j 0)

/-- `Harmoniser._aggregate_to_rank` / `_parse_rank_from_names`, column-merging
step: re-bucket every column under `resolve(name)` and sum columns that share
a resolved name, keeping first-seen order. -/
def aggregateCols (resolve : String → String) (t : PyTable α) : PyTable α :=
  let agg := (t.columns.zip (List.range t.columns.length)).foldl
    (fun acc cj =>
      let taxon := resolve cj.1
      let colv := colOf t cj.2
      if acc.any (fun kv => kv.1 = taxon) then
        acc.map (fun kv => if kv.1 = taxon then (kv.1, List.zipWith (· + ·) kv.2 colv) else kv)
      else acc ++ [(taxon, colv)])
    ([] : List (String × List α))
  ⟨t.index, agg.map (fun kv => kv.1),
   (List.range t.values.length).map (fun i => agg.map (fun kv => kv.2.getD i 0))⟩

/-- The ASV-to-taxon resolution of `_aggregate_to_rank`: the mapping dict is
built row by row, so a duplicated `Feature ID` keeps its last lineage; column
names absent from the mapping resolve to themselves (`.get(col, col)`). -/
def resolveFromTaxonomy (tax : List (String × String)) (rank : String) (col : String) : String :=
  match (tax.map (fun row => (row.1, extractRank row.2 rank))).reverse.lookup col with
  | some name => name
  | none => col

/-- `Harmoniser._clean_taxon_names`: rename every column to its cleaned name. -/
def cleanColumnsPy (t : PyTable α) : PyTable α :=
  ⟨t.index, t.columns.map cleanNameStr, t.values⟩

/-- Sample relabelling in `harmonise`: `df.index = [f"{run_id}:{s}" ...]`. -/
def relabelPy (runId : String) (t : PyTable α) : PyTable α :=
  ⟨t.index.map (fun s => runId ++ ":" ++ s), t.columns, t.values⟩

/-- `Harmoniser._align_taxa`: reindex every table to the sorted union of all
column names (missing columns filled with 0) and concatenate the rows. -/
def alignTaxaPy (ts : List (PyTable α)) : PyTable α :=
  let allTaxa := ((ts.foldl (fun acc t => acc ++ t.columns) []).dedup).insertionSort (· ≤ ·)
  ⟨ts.foldl (fun acc t => acc ++ t.index) [],
   allTaxa,
   ts.foldl (fun acc t =>
     acc ++ t.values.map (fun r =>
       allTaxa.map (fun c =>
         if t.columns.contains c then r.getD (t.columns.indexOf c) 0 else 0))) []⟩

/-- The part of a row label after the last `:` (`.str.split(":").str[-1]`). -/
def bareSampleId (s : String) : String := (s.splitOn ":").getLastD ""

/-- The part of a row label before the first `:` (`.split(":")[0]`). -/
def runIdOfLabel (s : String) : String := (s.splitOn ":").headD ""

/-- `Harmoniser._align_samples_intersection`: keep rows whose bare sample id
occurs in at least as many rows as there are distinct run prefixes; if no
sample id qualifies, keep every row. -/
def alignSamplesIntersection (t : PyTable α) : PyTable α :=
  let sampleIds := t.index.map bareSampleId
  let nRuns := (t.index.map runIdOfLabel).dedup.length
  let common := sampleIds.dedup.filter (fun sid => nRuns ≤ sampleIds.count sid)
  if common = [] then t
  else
    let kept := (t.index.zip t.values).filter (fun p => common.contains (bareSampleId p.1))
    ⟨kept.map (fun p => p.1), t.columns, kept.map (fun p => p.2)⟩

/-- One row of `Harmoniser._normalise_relative`: divide by the row sum, with a
zero sum replaced by 1 to avoid dividing a zero row. -/
def normRow (row : List α) : List α :=
  let s := row.sum
  let d := if s = 0 then 1 else s
  row.map (fun x => x / d)

/-- `Harmoniser._normalise_relative` on a table. -/
def normalisePyRelative (t : PyTable α) : PyTable α :=
  ⟨t.index, t.columns, t.values.map normRow⟩

/-- Number of columns of a table (`df.shape[1]`). -/
def ncolsPy (t : PyTable α) : ℕ := t.columns.length

/-- Keep the columns of `t` whose positions are listed in `ks` (in that
order): the model of boolean column selection `df.loc[:, keep]`. -/
def selectColsPy (ks : List ℕ) (t : PyTable α) : PyTable α :=
  ⟨t.index, ks.map (fun k => t.columns.getD k ""),
   t.values.map (fun r => ks.map (fun k => r.getD k 0))⟩

/-- Prevalence of column `j`: `(df > 0).mean(axis=0)`, the fraction of rows
whose value exceeds 0. -/
def prevalencePy (t : PyTable α) (j : ℕ) : α :=
  ((colOf t j).countP (fun x => 0 < x) : ℕ) / (t.values.length : ℕ)

/-- Mean of column `j`: `df.mean(axis=0)`. -/
def meanPy (t : PyTable α) (j : ℕ) : α := (colOf t j).sum / (t.values.length : ℕ)

/-- The prevalence filter of `Harmoniser._filter_taxa` (applied only when
`min_prevalence > 0`). -/
def prevalenceFilterPy (p : α) (t : PyTable α) : PyTable α :=
  if 0 < p then
    selectColsPy ((List.range (ncolsPy t)).filter (fun j => p ≤ prevalencePy t j)) t
  else t

/-- The mean-abundance filter of `Harmoniser._filter_taxa` (applied only when
`min_mean_abundance > 0`). -/
def meanFilterPy (m : α) (t : PyTable α) : PyTable α :=
  if 0 < m then
    selectColsPy ((List.range (ncolsPy t)).filter (fun j => m ≤ meanPy t j)) t
  else t

/-- `Harmoniser._filter_taxa`: prevalence filter, then mean-abundance filter. -/
def filterTaxaPy (p m : α) (t : PyTable α) : PyTable α :=
  meanFilterPy m (prevalenceFilterPy p t)

/-- `df.empty`: a table with no rows or no columns. -/
def emptyPy (t : PyTable α) : Prop := t.index = [] ∨ t.columns = []

instance (t : PyTable α) : Decidable (emptyPy t) := by
  unfold emptyPy; infer_instance

/-- The per-run processing loop body of `Harmoniser.harmonise` (lines
100-132): skip runs without usable data; otherwise orient the table,
aggregate to the configured rank (via the taxonomy when present, else by
parsing column names), clean the taxon names, and prefix sample labels with
the run id. -/
def processRun (cfg : HarmoniserConfig α) (run : RunData α) : Option (PyTable α) :=
  match run.abundanceTable with
  | none => none
  | some t =>
    if emptyPy t then none
    else
      let t1 := orientPy t
      let t2 := match run.taxonomy with
        | some tax =>
          if tax ≠ [] then aggregateCols (resolveFromTaxonomy tax cfg.rank) t1
          else aggregateCols (fun c => extractRank c cfg.rank) t1
        | none => aggregateCols (fun c => extractRank c cfg.rank) t1
      let t3 := cleanColumnsPy t2
      some (relabelPy run.runId t3)

end TableOps

/-- `Harmoniser._normalise_clr`: add the 0.5 pseudocount, take natural logs,
and centre each row on its arithmetic log-mean. -/
noncomputable def normalisePyClr (t : PyTable ℝ) : PyTable ℝ :=
  ⟨t.index, t.columns,
   t.values.map (fun row =>
     let lg := row.map (fun x => Real.log (x + 1 / 2))
     let m := lg.sum / (lg.length : ℝ)
     lg.map (fun y => y - m))⟩

/-- `Harmoniser.harmonise`: fail on fewer than two runs, process each run,
fail when no run had usable data, align taxa and samples, normalise, filter,
and derive run labels from the final row labels. -/
noncomputable def harmonise (cfg : HarmoniserConfig ℝ) (runs : List (RunData ℝ)) :
    Except HarmoniseError (HarmonisedData ℝ) :=
  if runs.length < 2 then .error .configurationError
  else
    let processed := runs.filterMap (processRun cfg)
    if processed = [] then .error .dataError
    else
      let aligned := alignTaxaPy processed
      let aligned2 :=
        if cfg.sampleAlign = "intersection" then alignSamplesIntersection aligned else aligned
      let aligned3 :=
        if cfg.norm = "relative" then normalisePyRelative aligned2
        else if cfg.norm = "clr" then normalisePyClr aligned2
        else aligned2
      let final := filterTaxaPy cfg.minPrevalence cfg.minMeanAbundance aligned3
      .ok ⟨final, final.index.map runIdOfLabel⟩

/-- The `Harmoniser.__init__` defaults. -/
noncomputable def defaultHarmoniserConfig : HarmoniserConfig ℝ :=
  ⟨"genus", "relative", "intersection", 1 / 10, 0⟩

/-! ## Analyzer: alpha diversity (`ComparisonAnalyzer._compute_alpha_diversity`) -/

/-- Observed richness of a sample row: `(df > 0).sum(axis=1)`. -/
def observedTaxa (row : List ℚ) : ℕ := row.countP (fun x => 0 < x)

/-- The Shannon index of a sample row: `-Σ p·ln(p)` over the positive entries'
proportions, and 0 when no entry is positive. -/
noncomputable def shannonIndex (row : List ℚ) : ℝ :=
  let pos := row.filter (fun x => 0 < x)
  if pos.length = 0 then 0
  else -((pos.map (fun x => ((x / pos.sum : ℚ) : ℝ) * Real.log ((x / pos.sum : ℚ) : ℝ))).sum)

/-- The Pielou denominator `np.log(observed_taxa.replace(0, 1))`. -/
noncomputable def pielouDenom (row : List ℚ)  : ℝ :=
  Real.log (((if observedTaxa row = 0 then 1 else observedTaxa row : ℕ) : ℝ))

/-- Pielou evenness `shannon / np.log(observed_taxa.replace(0, 1))`, with
`none` standing for the IEEE non-finite result of dividing by the exact
float 0 (`NaN` when the numerator is 0 too, as the claim notes). -/
noncomputable def pielouEvenness (row : List ℚ) : Option ℝ :=
  if pielouDenom row = 0 then none else some (shannonIndex row / pielouDenom row)

/-! ## Analyzer: Bray-Curtis beta diversity -/

/-- Numerator of `scipy.spatial.distance.braycurtis`: `Σ |u_i - v_i|`. -/
def brayCurtisNum (u v : List ℚ) : ℚ := (List.zipWith (fun a b => |a - b|) u v).sum

/-- Denominator of `scipy.spatial.distance.braycurtis`: `Σ |u_i + v_i|`. -/
def brayCurtisDen (u v : List ℚ) : ℚ := (List.zipWith (fun a b => |a + b|) u v).sum

/-- `braycurtis(u, v)`, with `none` standing for the IEEE `NaN` produced by
the float division `0/0` when both vectors have zero elementwise sums. -/
def brayCurtis (u v : List ℚ) : Option ℚ :=
  if brayCurtisDen u v = 0 then none else some (brayCurtisNum u v / brayCurtisDen u v)

/-- Entry `(i, j)` of the distance matrix built in
`ComparisonAnalyzer._compute_beta_diversity` by `squareform(pdist(df.values,
metric="braycurtis"))`: an exact zero diagonal and `braycurtis` off it. -/
def betaDistance (df : List (List ℚ)) (i j : ℕ) : Option ℚ :=
  if i = j then some 0 else brayCurtis (df.getD i []) (df.getD j [])

/-! ## Analyzer: PCoA variance explained (`ComparisonAnalyzer._pcoa`) -/

/-- The eigenvalues after `np.argsort(eigvals)[::-1]` reordering: sorted in
decreasing order. -/
def sortEigDesc (evs : List ℚ) : List ℚ := evs.insertionSort (fun a b => b ≤ a)

/-- `total_var = np.sum(np.maximum(eigvals, 0))`. -/
def totalVar (evs : List ℚ) : ℚ := (evs.map (fun x => max x 0)).sum

/-- `var_explained = eigvals[:k] / total_var if total_var > 0 else
np.zeros(k)`, on the eigenvalues sorted in decreasing order. -/
def varExplained (evs : List ℚ) (k : ℕ) : List ℚ :=
  if 0 < totalVar evs then ((sortEigDesc evs).take k).map (fun x => x / totalVar evs)
  else List.replicate k 0

/-! ## Analyzer: PERMANOVA (`ComparisonAnalyzer._compute_permanova`) -/

/-- The row indices whose group label equals `g` (`groups_arr == g`). -/
def groupMask (labels : List ℕ) (g : ℕ) : List ℕ :=
  (List.range labels.length).filter (fun i => labels.getD i 0 = g)

/-- The within-group sum of squares of `pseudo_f`: each group with more than
one member contributes the sum of its distance submatrix over `2·n_g`. -/
def ssWithinCalc (D : ℕ → ℕ → ℚ) (uniqueGroups labels : List ℕ) : ℚ :=
  (uniqueGroups.map (fun g =>
    let m := groupMask labels g
    if 1 < m.length then
      ((m.map (fun i => (m.map (fun j => D i j)).sum)).sum) / (2 * (m.length : ℚ))
    else 0)).sum

/-- `pseudo_f(D, groups)`: the PERMANOVA pseudo-F statistic, `none` standing
for the `np.nan` returned when there are no within-group degrees of freedom
or the within-group sum of squares is zero.  `uniqueGroups` is captured from
the enclosing scope in the source (the distinct labels of the observed
grouping). -/
def pseudoF (D : ℕ → ℕ → ℚ) (uniqueGroups labels : List ℕ) : Option ℚ :=
  let n := labels.length
  let ssTotal : ℚ :=
    ((List.range n).map (fun i => ((List.range n).map (fun j => (D i j) ^ 2)).sum)).sum
      / (2 * (n : ℚ))
  let ssWithin := ssWithinCalc D uniqueGroups labels
  let ssBetween := ssTotal - ssWithin
  let dfBetween : ℚ := (uniqueGroups.length : ℚ) - 1
  let dfWithin : ℤ := (labels.length : ℤ) - (uniqueGroups.length : ℤ)
  if dfWithin ≤ 0 ∨ ssWithin = 0 then none
  else some ((ssBetween / dfBetween) / (ssWithin / (dfWithin : ℚ)))

/-- The permutation p-value of `_compute_permanova`: permutations whose
statistic is `NaN` are dropped, and
`p = (#{permF ≥ observedF} + 1) / (len(valid) + 1)` is computed only when the
observed statistic is defined and at least one valid permutation remains
(`np.nan`, i.e. `none`, otherwise). -/
def permanovaPValue (observed : Option ℚ) (permFs : List (Option ℚ)) : Option ℚ :=
  let valid := permFs.filterMap id
  match observed with
  | none => none
  | some f =>
    if valid.length = 0 then none
    else some (((valid.countP (fun x => f ≤ x) : ℕ) + 1) / ((valid.length : ℕ) + 1) : ℚ)

/-! ## Analyzer: Benjamini-Hochberg FDR (`ComparisonAnalyzer._compute_differential`) -/

/-- Suffix minima: `np.minimum.accumulate(fdr[::-1])[::-1]`, i.e. entry `i`
becomes `min` of entries `i, i+1, …`. -/
def suffixMins : List ℚ → List ℚ
  | [] => []
  | x :: rest =>
    match suffixMins rest with
    | [] => [x]
    | y :: t => min x y :: y :: t

/-- Benjamini-Hochberg correction of `_compute_differential`, lines 430-437,
parameterised by the sorted index list `σ` produced by `np.argsort(p_values)`
(any permutation putting the p-values in ascending order): compute
`q_k = sortedP_k · n / (k+1)`, take suffix minima, and scatter back to the
original taxon order (`fdr_corrected[sorted_idx] = fdr`). -/
def bhFdr (pvals : List ℚ) (σ : List ℕ) : List ℚ :=
  let n := pvals.length
  let sortedP := σ.map (fun i => pvals.getD i 0)
  let fdr0 := (List.range n).map (fun k => sortedP.getD k 0 * (n : ℚ) / ((k : ℚ) + 1))
  let fdrm := suffixMins fdr0
  (List.range n).map (fun i => fdrm.getD (σ.indexOf i) 0)

/-! ## General list helper lemmas -/

theorem getD_map_of_lt {α β : Type} (f : α → β) (l : List α) (i : ℕ) (d : β) (d' : α)
    (h : i < l.length) : (l.map f).getD i d = f (l.getD i d') := by
  induction l generalizing i with
  | nil => simp at h
  | cons x xs ih =>
    cases i with
    | zero => simp
    | succ k => simpa using ih k (by simpa using h)

theorem sum_map_div {row : List ℚ} {d : ℚ} : (row.map (fun x => x / d)).sum = row.sum / d := by
  induction row with
  | nil => simp
  | cons x xs ih => simp [add_div, ih]

theorem getD_replicate_zero (n i : ℕ) : (List.replicate n (0 : ℚ)).getD i 0 = 0 := by
  induction n generalizing i with
  | zero => simp
  | succ k ih => cases i <;> simp [List.replicate_succ, ih]

theorem normRow_of_sum_eq_zero {α : Type} [LinearOrderedField α] (row : List α)
    (h : row.sum = 0) : normRow row = row := by
  simp [normRow, h]

theorem normRow_sum_of_sum_ne_zero (row : List ℚ) (h : row.sum ≠ 0) :
    (normRow row).sum = 1 := by
  simp only [normRow, if_neg h]
  rw [sum_map_div, div_self h]

/-! ## C9 -/

/-- C9: calling `harmonise` with fewer than 2 runs fails with the
configuration error (raised as `ValueError("Need at least 2 runs to
harmonise")` in the source, the failure mode the specification names
`ConfigurationError`), and no matrix is returned. -/
theorem c9_harmonise_min_runs (cfg : HarmoniserConfig ℝ) (runs : List (RunData ℝ))
    (h : runs.length < 2) :
    harmonise cfg runs = Except.error HarmoniseError.configurationError := by
  unfold harmonise
  rw [if_pos h]

theorem c9_harmonise_min_runs_witness :
    harmonise defaultHarmoniserConfig [⟨"run1", none, none⟩] =
      Except.error HarmoniseError.configurationError :=
  c9_harmonise_min_runs defaultHarmoniserConfig [⟨"run1", none, none⟩] (by decide)

/-! ## C2 -/

/-- C2 counterexample: a table with more columns (2) than rows (1), which the
claim says is transposed before further processing, is in fact left
untransposed by the orientation step (the source transposes only when
`df.shape[0] > df.shape[1]`, i.e. more rows than columns). -/
theorem c2_orientation_counterexample :
    (⟨["s1"], ["A", "B"], [[1, 2]]⟩ : PyTable ℚ).index.length <
        ncolsPy (⟨["s1"], ["A", "B"], [[1, 2]]⟩ : PyTable ℚ) ∧
    orientPy (⟨["s1"], ["A", "B"], [[1, 2]]⟩ : PyTable ℚ) = ⟨["s1"], ["A", "B"], [[1, 2]]⟩ ∧
    orientPy (⟨["s1"], ["A", "B"], [[1, 2]]⟩ : PyTable ℚ) ≠
      transposePy (⟨["s1"], ["A", "B"], [[1, 2]]⟩ : PyTable ℚ) := by
  refine ⟨by decide, rfl, ?_⟩
  decide

/-- C2 amended: a run's table is transposed before further processing exactly
when it has more rows than columns; a table with at least as many columns as
rows is left untransposed. -/
theorem c2_orientation_amended {α : Type} [LinearOrderedField α] (t : PyTable α) :
    (t.columns.length < t.index.length → orientPy t = transposePy t) ∧
    (t.index.length ≤ t.columns.length → orientPy t = t) := by
  constructor
  · intro h
    unfold orientPy
    rw [if_pos h]
  · intro h
    unfold orientPy
    rw [if_neg (not_lt.mpr h)]

theorem c2_orientation_amended_witness :
    orientPy (⟨["s1", "s2"], ["A"], [[1], [2]]⟩ : PyTable ℚ) =
      transposePy (⟨["s1", "s2"], ["A"], [[1], [2]]⟩ : PyTable ℚ) ∧
    orientPy (⟨["s1"], ["A", "B"], [[1, 2]]⟩ : PyTable ℚ) =
      (⟨["s1"], ["A", "B"], [[1, 2]]⟩ : PyTable ℚ) :=
  ⟨(c2_orientation_amended ⟨["s1", "s2"], ["A"], [[1], [2]]⟩).1 (by decide),
   (c2_orientation_amended ⟨["s1"], ["A", "B"], [[1, 2]]⟩).2 (by decide)⟩

/-! ## C1 -/

/-- C1 counterexample: the filters run after relative normalisation, so a
taxon dropped by the prevalence filter takes its share of a row's mass with
it.  With `min_prevalence = 1/2` on a 3-sample aligned matrix whose first row
is `[1, 1]`, the final first row sums to `1/2`: not within `1e-9` of 1, and
the pre-normalisation row was not all-zero. -/
theorem c1_rowsum_filter_counterexample :
    ((filterTaxaPy ((1 : ℚ) / 2) 0 (normalisePyRelative
        ⟨["r1:a", "r1:b", "r2:a"], ["A", "B"], [[1, 1], [1, 0], [1, 0]]⟩)).values.getD 0 []).sum
      = 1 / 2 ∧
    ¬ |(1 : ℚ) / 2 - 1| ≤ 1 / 1000000000 ∧
    ([1, 1] : List ℚ).sum ≠ 0 := by
  refine ⟨?_, ?_, by norm_num⟩
  · norm_num [filterTaxaPy, meanFilterPy, prevalenceFilterPy, selectColsPy, prevalencePy, meanPy,
      colOf, ncolsPy, normalisePyRelative, normRow, List.range_succ, List.filter, List.countP,
      List.countP.go]
  · rw [abs_le]
    norm_num

/-- C1 amended: immediately after relative normalisation (before filtering),
every row of the aligned matrix whose pre-normalisation sum is nonzero sums
to exactly 1, and every row whose sum is 0 is left unchanged (in particular
all-zero rows stay all-zero). -/
theorem c1_relative_normalisation_rowsum (t : PyTable ℚ) (i : ℕ) (hi : i < t.values.length) :
    ((t.values.getD i []).sum = 0 →
        (normalisePyRelative t).values.getD i [] = t.values.getD i []) ∧
    ((t.values.getD i []).sum ≠ 0 →
        ((normalisePyRelative t).values.getD i []).sum = 1) := by
  have hmap : (normalisePyRelative t).values.getD i [] = normRow (t.values.getD i []) := by
    unfold normalisePyRelative
    exact getD_map_of_lt normRow t.values i [] [] hi
  constructor
  · intro h0
    rw [hmap]
    exact normRow_of_sum_eq_zero _ h0
  · intro hne
    rw [hmap]
    exact normRow_sum_of_sum_ne_zero _ hne

theorem c1_relative_normalisation_rowsum_witness :
    ((normalisePyRelative (⟨["r1:a"], ["A", "B"], [[2, 2]]⟩ : PyTable ℚ)).values.getD 0 []).sum
      = 1 :=
  (c1_relative_normalisation_rowsum ⟨["r1:a"], ["A", "B"], [[2, 2]]⟩ 0 (by decide)).2
    (by norm_num)

/-! ## C6 -/

theorem zipWith_sum_nonneg (f : ℚ → ℚ → ℚ) (hf : ∀ a b, 0 ≤ f a b) (u v : List ℚ) :
    0 ≤ (List.zipWith f u v).sum := by
  induction u generalizing v with
  | nil => simp
  | cons x xs ih =>
    cases v with
    | nil => simp
    | cons y ys => simpa using add_nonneg (hf x y) (ih ys)

theorem brayCurtisNum_comm (u v : List ℚ) : brayCurtisNum u v = brayCurtisNum v u := by
  unfold brayCurtisNum
  congr 1
  induction u generalizing v with
  | nil => cases v <;> simp
  | cons x xs ih =>
    cases v with
    | nil => simp
    | cons y ys => simp [abs_sub_comm, ih]

theorem brayCurtisDen_comm (u v : List ℚ) : brayCurtisDen u v = brayCurtisDen v u := by
  unfold brayCurtisDen
  congr 1
  induction u generalizing v with
  | nil => cases v <;> simp
  | cons x xs ih =>
    cases v with
    | nil => simp
    | cons y ys => simp [add_comm, ih]

/-- C6 counterexample: two all-zero sample rows (which relative normalisation
leaves in the harmonised matrix) give `braycurtis` a zero denominator, so the
off-diagonal entry is the float `NaN` (modelled `none`) rather than a
non-negative number. -/
theorem c6_braycurtis_counterexample :
    (0 : ℕ) ≠ 1 ∧
    ∀ q : ℚ, ¬ (betaDistance [[0, 0], [0, 0]] 0 1 = some q ∧ 0 ≤ q) := by
  refine ⟨by decide, fun q hq => ?_⟩
  have h : betaDistance [[(0 : ℚ), 0], [0, 0]] 0 1 = none := by
    norm_num [betaDistance, brayCurtis, brayCurtisDen]
  rw [h] at hq
  exact Option.noConfusion hq.1

/-- C6 amended: the Bray-Curtis distance matrix is symmetric with an exact
zero diagonal, and every defined entry is non-negative; an off-diagonal entry
is undefined (`NaN`) exactly when the two rows' elementwise absolute sums add
to zero, as for a pair of all-zero rows. -/
theorem c6_braycurtis_amended (df : List (List ℚ)) (i j : ℕ) :
    betaDistance df i j = betaDistance df j i ∧
    betaDistance df i i = some 0 ∧
    ∀ q : ℚ, betaDistance df i j = some q → 0 ≤ q := by
  refine ⟨?_, by simp [betaDistance], fun q hq => ?_⟩
  · unfold betaDistance
    by_cases hij : i = j
    · simp [hij]
    · rw [if_neg hij, if_neg (Ne.symm hij)]
      unfold brayCurtis
      rw [brayCurtisNum_comm, brayCurtisDen_comm]
  · unfold betaDistance at hq
    by_cases hij : i = j
    · rw [if_pos hij] at hq
      cases hq
      exact le_refl 0
    · rw [if_neg hij] at hq
      unfold brayCurtis at hq
      by_cases hden : brayCurtisDen (df.getD i []) (df.getD j []) = 0
      · rw [if_pos hden] at hq
        exact Option.noConfusion hq
      · rw [if_neg hden] at hq
        cases hq
        exact div_nonneg
          (zipWith_sum_nonneg _ (fun a b => abs_nonneg (a - b)) _ _)
          (zipWith_sum_nonneg _ (fun a b => abs_nonneg (a + b)) _ _)

theorem c6_braycurtis_amended_witness :
    betaDistance [[(1 : ℚ), 2], [2, 1]] 0 1 = betaDistance [[(1 : ℚ), 2], [2, 1]] 1 0 ∧
    (0 : ℚ) ≤ 1 / 3 :=
  ⟨(c6_braycurtis_amended [[(1 : ℚ), 2], [2, 1]] 0 1).1,
   (c6_braycurtis_amended [[(1 : ℚ), 2], [2, 1]] 0 1).2.2 (1 / 3)
     (by norm_num [betaDistance, brayCurtis, brayCurtisNum, brayCurtisDen])⟩

/-! ## C3 -/

/-- C3: when the observed pseudo-F is defined and at least one permutation
yields a defined statistic, the reported p-value is
`(#{permF ≥ observedF} + 1) / (#validPermutations + 1)` — permutations whose
statistic is undefined are excluded — and it lies in `(0, 1]`. -/
theorem c3_permanova_pvalue (D : ℕ → ℕ → ℚ) (uniqueGroups labels : List ℕ)
    (perms : List (List ℕ)) (f : ℚ)
    (hobs : pseudoF D uniqueGroups labels = some f)
    (hvalid : (perms.map (pseudoF D uniqueGroups)).filterMap id ≠ []) :
    ∃ q : ℚ,
      permanovaPValue (pseudoF D uniqueGroups labels) (perms.map (pseudoF D uniqueGroups))
        = some q ∧
      q = ((((perms.map (pseudoF D uniqueGroups)).filterMap id).countP (fun x => f ≤ x) : ℕ) + 1)
            / ((((perms.map (pseudoF D uniqueGroups)).filterMap id).length : ℕ) + 1) ∧
      0 < q ∧ q ≤ 1 := by
  set valid := (perms.map (pseudoF D uniqueGroups)).filterMap id with hvdef
  have hlen : valid.length ≠ 0 := fun h => hvalid (List.length_eq_zero.mp h)
  have hden : (0 : ℚ) < (valid.length : ℚ) + 1 := by positivity
  refine ⟨(((valid.countP (fun x => f ≤ x) : ℕ) + 1) / ((valid.length : ℕ) + 1) : ℚ), ?_, rfl,
    ?_, ?_⟩
  · unfold permanovaPValue
    rw [hobs]
    simp only [← hvdef]
    rw [if_neg hlen]
  · have hnum : (0 : ℚ) < ((valid.countP (fun x => f ≤ x) : ℕ) : ℚ) + 1 := by positivity
    exact div_pos hnum hden
  · rw [div_le_one hden]
    have hc : valid.countP (fun x => f ≤ x) ≤ valid.length := List.countP_le_length _
    have := (Nat.cast_le (α := ℚ)).mpr hc
    linarith

theorem c3_permanova_pvalue_witness :
    ∃ q : ℚ,
      permanovaPValue
          (pseudoF (fun i j => if i = j then 0 else 1) [0, 1] [0, 0, 1, 1])
          ([[0, 1, 0, 1]].map (pseudoF (fun i j => if i = j then 0 else 1) [0, 1]))
        = some q ∧
      q = (((([[0, 1, 0, 1]].map (pseudoF (fun i j => if i = j then 0 else 1) [0, 1])).filterMap
              id).countP (fun x => (1 : ℚ) ≤ x) : ℕ) + 1)
            / ((((([[0, 1, 0, 1]].map
                  (pseudoF (fun i j => if i = j then 0 else 1) [0, 1])).filterMap id).length : ℕ)
                + 1)) ∧
      0 < q ∧ q ≤ 1 :=
  c3_permanova_pvalue (fun i j => if i = j then 0 else 1) [0, 1] [0, 0, 1, 1] [[0, 1, 0, 1]] 1
    (by norm_num [pseudoF, ssWithinCalc, groupMask, List.range_succ, List.filter])
    (by norm_num [pseudoF, ssWithinCalc, groupMask, List.range_succ, List.filter, List.filterMap])

/-! ## C10 -/

/-- C10: for a sample row with richness 0 or 1, the Shannon index is 0 and
the Pielou denominator `ln(max(richness,1))` is 0, so the evenness is the
unguarded float quotient `0/0`, i.e. `NaN` (modelled `none`). -/
theorem c10_pielou_nan (row : List ℚ) (h : observedTaxa row ≤ 1) :
    shannonIndex row = 0 ∧ pielouDenom row = 0 ∧ pielouEvenness row = none := by
  have hlen : (row.filter (fun x => 0 < x)).length = observedTaxa row := by
    unfold observedTaxa
    rw [List.countP_eq_length_filter]
  have hden : pielouDenom row = 0 := by
    unfold pielouDenom
    rcases Nat.le_one_iff_eq_zero_or_eq_one.mp h with h0 | h1
    · rw [if_pos h0]
      simp
    · rw [if_neg (by rw [h1]; exact one_ne_zero), h1]
      simp
  have hshan : shannonIndex row = 0 := by
    unfold shannonIndex
    rcases Nat.le_one_iff_eq_zero_or_eq_one.mp h with h0 | h1
    · rw [if_pos (by rw [hlen, h0])]
    · rw [if_neg (by rw [hlen, h1]; exact one_ne_zero)]
      obtain ⟨x, hx⟩ := List.length_eq_one.mp (hlen.trans h1)
      have hxpos : 0 < x := by
        have hmem : x ∈ row.filter (fun x => 0 < x) := by
          rw [hx]
          exact List.mem_singleton_self x
        simpa using (List.mem_filter.mp hmem).2
      rw [hx]
      have hone : (x : ℝ) / (x : ℝ) = 1 := div_self (by exact_mod_cast ne_of_gt hxpos)
      simp [hone]
  exact ⟨hshan, hden, by unfold pielouEvenness; rw [if_pos hden]⟩

theorem c10_pielou_nan_witness :
    shannonIndex [2, 0] = 0 ∧ pielouDenom [2, 0] = 0 ∧ pielouEvenness [2, 0] = none :=
  c10_pielou_nan [2, 0] (by norm_num [observedTaxa, List.countP, List.countP.go])

/-! ## C5 -/

theorem sum_nonpos_of_forall (l : List ℚ) (h : ∀ x ∈ l, x ≤ 0) : l.sum ≤ 0 := by
  induction l with
  | nil => simp
  | cons x xs ih =>
    rw [List.sum_cons]
    exact add_nonpos (h x (List.mem_cons_self x xs))
      (ih (fun y hy => h y (List.mem_cons_of_mem x hy)))

/-- In a descending sorted list containing 0 and with non-negative total sum,
the first two entries are non-negative. -/
theorem sortedDesc_take2_nonneg (s : List ℚ) (hs : s.Sorted (fun a b => b ≤ a))
    (h0 : (0 : ℚ) ∈ s) (hsum : 0 ≤ s.sum) : ∀ x ∈ s.take 2, 0 ≤ x := by
  rcases s with _ | ⟨a, _ | ⟨b, t⟩⟩
  · simp
  · intro x hx
    have hxa : x = a := by simpa using hx
    have ha : (0 : ℚ) = a := by simpa using h0
    rw [hxa, ← ha]
  · have hcons := List.sorted_cons.mp hs
    have hcons2 := List.sorted_cons.mp hcons.2
    have hab : b ≤ a := hcons.1 b (List.mem_cons_self b t)
    have hbnn : 0 ≤ b := by
      by_contra hb
      push_neg at hb
      have htle : ∀ y ∈ t, y ≤ 0 := fun y hy => le_of_lt (lt_of_le_of_lt (hcons2.1 y hy) hb)
      have ha0 : a = 0 := by
        rcases List.mem_cons.mp h0 with h | h
        · exact h.symm
        · rcases List.mem_cons.mp h with h' | h'
          · exact absurd h'.symm (ne_of_lt hb)
          · exact absurd (hcons2.1 0 h') (not_le.mpr hb)
      have hss : (a :: b :: t).sum = b + t.sum := by simp [List.sum_cons, ha0]
      have hlt : (a :: b :: t).sum < 0 := by
        rw [hss]
        exact add_neg_of_neg_of_nonpos hb (sum_nonpos_of_forall t htle)
      exact absurd hsum (not_le.mpr hlt)
    intro x hx
    have : x = a ∨ x = b := by simpa using hx
    rcases this with rfl | rfl
    · exact le_trans hbnn hab
    · exact hbnn

/-- Every eigenvalue is bounded by the sum of the clamped eigenvalues. -/
theorem le_totalVar (evs : List ℚ) (x : ℚ) (hx : x ∈ evs) : x ≤ totalVar evs := by
  calc x ≤ max x 0 := le_max_left x 0
    _ ≤ totalVar evs :=
      List.single_le_sum
        (by
          intro y hy
          obtain ⟨e, _, rfl⟩ := List.mem_map.mp hy
          exact le_max_right e 0)
        (max x 0) (List.mem_map_of_mem _ hx)

theorem getD_one_desc (u : ℚ) (h0u : 0 ≤ u) (i j : ℕ) (hij : i ≤ j) :
    ([u] : List ℚ).getD j 0 ≤ ([u] : List ℚ).getD i 0 := by
  match i, j with
  | 0, 0 => exact le_refl _
  | 0, j + 1 => simpa [List.getD_cons_succ, List.getD_nil] using h0u
  | i + 1, 0 => exact absurd hij (by omega)
  | i + 1, j + 1 => simp [List.getD_cons_succ, List.getD_nil]

theorem getD_two_desc (u v : ℚ) (h0v : 0 ≤ v) (hvu : v ≤ u) (i j : ℕ) (hij : i ≤ j) :
    ([u, v] : List ℚ).getD j 0 ≤ ([u, v] : List ℚ).getD i 0 := by
  match i, j with
  | 0, 0 => exact le_refl _
  | 0, 1 => exact hvu
  | 0, j + 2 => simpa [List.getD_cons_succ, List.getD_nil] using le_trans h0v hvu
  | 1, 0 => exact absurd hij (by omega)
  | 1, 1 => exact le_refl _
  | 1, j + 2 => simpa [List.getD_cons_succ, List.getD_nil] using h0v
  | i + 2, 0 => exact absurd hij (by omega)
  | i + 2, 1 => exact absurd hij (by omega)
  | i + 2, j + 2 => simp [List.getD_cons_succ, List.getD_nil]

/-- C5: on any eigenvalue list that contains 0 and has non-negative sum (both
hold for the spectrum of the double-centred matrix `B = -1/2·J·D²·J`: `J`
annihilates the all-ones vector, so 0 is an eigenvalue, and
`tr B = ΣD²/(2n) ≥ 0`), every reported variance-explained value lies in
`[0, 1]` and the values are non-increasing from the top component down. -/
theorem c5_variance_explained (evs : List ℚ) (h0 : (0 : ℚ) ∈ evs) (hsum : 0 ≤ evs.sum) :
    (∀ v ∈ varExplained evs 2, 0 ≤ v ∧ v ≤ 1) ∧
    (∀ i j : ℕ, i ≤ j → (varExplained evs 2).getD j 0 ≤ (varExplained evs 2).getD i 0) := by
  unfold varExplained
  by_cases htot : 0 < totalVar evs
  · rw [if_pos htot]
    haveI : IsTotal ℚ (fun a b : ℚ => b ≤ a) := ⟨fun a b => le_total b a⟩
    haveI : IsTrans ℚ (fun a b : ℚ => b ≤ a) := ⟨fun _ _ _ h1 h2 => le_trans h2 h1⟩
    have hperm : List.Perm (sortEigDesc evs) evs := List.perm_insertionSort _ evs
    have hsorted : (sortEigDesc evs).Sorted (fun a b => b ≤ a) :=
      List.sorted_insertionSort _ evs
    have h0s : (0 : ℚ) ∈ sortEigDesc evs := hperm.mem_iff.mpr h0
    have hsums : 0 ≤ (sortEigDesc evs).sum := by rw [hperm.sum_eq]; exact hsum
    have hnn := sortedDesc_take2_nonneg (sortEigDesc evs) hsorted h0s hsums
    have hmem1 : ∀ v ∈ ((sortEigDesc evs).take 2).map (fun x => x / totalVar evs),
        0 ≤ v ∧ v ≤ 1 := by
      intro v hv
      obtain ⟨x, hx, rfl⟩ := List.mem_map.mp hv
      refine ⟨div_nonneg (hnn x hx) (le_of_lt htot), ?_⟩
      rw [div_le_one htot]
      exact le_totalVar evs x (hperm.mem_iff.mp (List.mem_of_mem_take hx))
    refine ⟨hmem1, ?_⟩
    rcases hsd : sortEigDesc evs with _ | ⟨a, _ | ⟨b, t⟩⟩
    · intro i j hij
      simp [hsd]
    · intro i j hij
      have ha : 0 ≤ a / totalVar evs := by
        have := hmem1 (a / totalVar evs) (by rw [hsd]; simp)
        exact this.1
      simpa [hsd] using getD_one_desc _ ha i j hij
    · intro i j hij
      have hb : 0 ≤ b / totalVar evs := by
        have := hmem1 (b / totalVar evs) (by rw [hsd]; simp)
        exact this.1
      have hba : b / totalVar evs ≤ a / totalVar evs := by
        have hab : b ≤ a := by
          rw [hsd] at hsorted
          exact (List.sorted_cons.mp hsorted).1 b (List.mem_cons_self b t)
        exact (div_le_div_iff_of_pos_right htot).mpr hab
      simpa [hsd] using getD_two_desc _ _ hb hba i j hij
  · rw [if_neg htot]
    constructor
    · intro v hv
      have : v = 0 := (List.eq_of_mem_replicate hv)
      rw [this]
      exact ⟨le_refl 0, zero_le_one⟩
    · intro i j _
      rw [getD_replicate_zero, getD_replicate_zero]

theorem c5_variance_explained_witness :
    (∀ v ∈ varExplained [3, 1, 0, -2] 2, 0 ≤ v ∧ v ≤ 1) ∧
    (∀ i j : ℕ, i ≤ j →
      (varExplained [3, 1, 0, -2] 2).getD j 0 ≤ (varExplained [3, 1, 0, -2] 2).getD i 0) :=
  c5_variance_explained [3, 1, 0, -2] (by norm_num) (by norm_num)

/-! ## C8 -/

section FilterCommute

variable {α : Type} [LinearOrderedField α]

theorem ncolsPy_selectColsPy (ks : List ℕ) (t : PyTable α) :
    ncolsPy (selectColsPy ks t) = ks.length := by
  simp [ncolsPy, selectColsPy]

theorem values_length_selectColsPy (ks : List ℕ) (t : PyTable α) :
    (selectColsPy ks t).values.length = t.values.length := by
  simp [selectColsPy]

theorem colOf_selectColsPy (ks : List ℕ) (t : PyTable α) (j : ℕ) (hj : j < ks.length) :
    colOf (selectColsPy ks t) j = colOf t (ks.getD j 0) := by
  simp only [colOf, selectColsPy, List.map_map]
  exact List.map_congr_left (fun r _ => getD_map_of_lt _ ks j 0 0 hj)

theorem prevalencePy_selectColsPy (ks : List ℕ) (t : PyTable α) (j : ℕ) (hj : j < ks.length) :
    prevalencePy (selectColsPy ks t) j = prevalencePy t (ks.getD j 0) := by
  unfold prevalencePy
  rw [colOf_selectColsPy ks t j hj, values_length_selectColsPy]

theorem meanPy_selectColsPy (ks : List ℕ) (t : PyTable α) (j : ℕ) (hj : j < ks.length) :
    meanPy (selectColsPy ks t) j = meanPy t (ks.getD j 0) := by
  unfold meanPy
  rw [colOf_selectColsPy ks t j hj, values_length_selectColsPy]

theorem selectColsPy_selectColsPy (ks1 ks2 : List ℕ) (t : PyTable α)
    (h : ∀ j ∈ ks2, j < ks1.length) :
    selectColsPy ks2 (selectColsPy ks1 t) =
      selectColsPy (ks2.map (fun j => ks1.getD j 0)) t := by
  unfold selectColsPy
  refine congrArg₂ (PyTable.mk _) ?_ ?_
  · rw [List.map_map]
    exact List.map_congr_left (fun j hj => getD_map_of_lt _ ks1 j "" 0 (h j hj))
  · rw [List.map_map]
    refine List.map_congr_left (fun r _ => ?_)
    show ks2.map (fun k => (ks1.map (fun k' => r.getD k' 0)).getD k 0)
        = (ks2.map (fun j => ks1.getD j 0)).map (fun k => r.getD k 0)
    rw [List.map_map]
    exact List.map_congr_left (fun j hj => getD_map_of_lt _ ks1 j 0 0 (h j hj))

theorem range_filter_map_getD (l : List ℕ) (P : ℕ → Bool) :
    ((List.range l.length).filter (fun j => P (l.getD j 0))).map (fun j => l.getD j 0)
      = l.filter P := by
  induction l with
  | nil => simp
  | cons x xs ih =>
    rw [List.length_cons, List.range_succ_eq_map, List.filter_cons]
    have hcomp : ((List.range xs.length).map Nat.succ).filter
          (fun j => P ((x :: xs).getD j 0))
        = ((List.range xs.length).filter (fun j => P (xs.getD j 0))).map Nat.succ := by
      rw [List.filter_map]
      rfl
    cases hPx : P x with
    | true =>
      rw [if_pos (by simpa using hPx)]
      rw [List.map_cons, hcomp, List.map_map]
      have : ((fun j => (x :: xs).getD j 0) ∘ Nat.succ) = (fun j => xs.getD j 0) := by
        funext j
        simp [List.getD_cons_succ]
      rw [this, ih]
      simp [List.filter_cons, hPx]
    | false =>
      rw [if_neg (by simp [hPx])]
      rw [hcomp, List.map_map]
      have : ((fun j => (x :: xs).getD j 0) ∘ Nat.succ) = (fun j => xs.getD j 0) := by
        funext j
        simp [List.getD_cons_succ]
      rw [this, ih]
      simp [List.filter_cons, hPx]

theorem meanFilterPy_of_pos {m : α} (hm : 0 < m) (t : PyTable α) :
    meanFilterPy m t =
      selectColsPy ((List.range (ncolsPy t)).filter (fun j => m ≤ meanPy t j)) t := by
  unfold meanFilterPy
  rw [if_pos hm]

theorem meanFilterPy_of_nonpos {m : α} (hm : ¬ 0 < m) (t : PyTable α) :
    meanFilterPy m t = t := by
  unfold meanFilterPy
  rw [if_neg hm]

theorem prevalenceFilterPy_of_pos {p : α} (hp : 0 < p) (t : PyTable α) :
    prevalenceFilterPy p t =
      selectColsPy ((List.range (ncolsPy t)).filter (fun j => p ≤ prevalencePy t j)) t := by
  unfold prevalenceFilterPy
  rw [if_pos hp]

theorem prevalenceFilterPy_of_nonpos {p : α} (hp : ¬ 0 < p) (t : PyTable α) :
    prevalenceFilterPy p t = t := by
  unfold prevalenceFilterPy
  rw [if_neg hp]

/-- Applying one per-column filter after another amounts to filtering the
original column positions by both predicates in sequence. -/
theorem filter_after_select (t : PyTable α) (Q R : ℕ → Bool) :
    selectColsPy
        ((List.range (ncolsPy (selectColsPy ((List.range (ncolsPy t)).filter Q) t))).filter
          (fun j => R ((((List.range (ncolsPy t)).filter Q)).getD j 0)))
        (selectColsPy ((List.range (ncolsPy t)).filter Q) t)
      = selectColsPy (((List.range (ncolsPy t)).filter Q).filter R) t := by
  set ks := (List.range (ncolsPy t)).filter Q with hks
  rw [ncolsPy_selectColsPy]
  rw [selectColsPy_selectColsPy ks _ t
    (fun j hj => List.mem_range.mp (List.mem_of_mem_filter hj))]
  rw [range_filter_map_getD]

end FilterCommute

/-- C8: the prevalence filter and the mean-abundance filter (each a
per-column threshold test on quantities the other cannot change) commute:
applying them in either order yields the same matrix. -/
theorem c8_filter_commute {α : Type} [LinearOrderedField α] (t : PyTable α) (p m : α)
    (hp0 : 0 ≤ p) (hp1 : p ≤ 1) (hm0 : 0 ≤ m) :
    prevalenceFilterPy p (meanFilterPy m t) = meanFilterPy m (prevalenceFilterPy p t) := by
  by_cases hp : 0 < p
  · by_cases hm : 0 < m
    · rw [meanFilterPy_of_pos hm t, prevalenceFilterPy_of_pos hp t,
        prevalenceFilterPy_of_pos hp, meanFilterPy_of_pos hm]
      have hprev : (List.range (ncolsPy (selectColsPy
            ((List.range (ncolsPy t)).filter (fun j => m ≤ meanPy t j)) t))).filter
          (fun j => p ≤ prevalencePy (selectColsPy
            ((List.range (ncolsPy t)).filter (fun j => m ≤ meanPy t j)) t) j)
          = (List.range (ncolsPy (selectColsPy
            ((List.range (ncolsPy t)).filter (fun j => m ≤ meanPy t j)) t))).filter
          (fun j => p ≤ prevalencePy t
            (((List.range (ncolsPy t)).filter (fun j => m ≤ meanPy t j)).getD j 0)) := by
        refine List.filter_congr (fun j hj => ?_)
        rw [ncolsPy_selectColsPy] at hj
        rw [prevalencePy_selectColsPy _ t j (List.mem_range.mp hj)]
      have hmean : (List.range (ncolsPy (selectColsPy
            ((List.range (ncolsPy t)).filter (fun j => p ≤ prevalencePy t j)) t))).filter
          (fun j => m ≤ meanPy (selectColsPy
            ((List.range (ncolsPy t)).filter (fun j => p ≤ prevalencePy t j)) t) j)
          = (List.range (ncolsPy (selectColsPy
            ((List.range (ncolsPy t)).filter (fun j => p ≤ prevalencePy t j)) t))).filter
          (fun j => m ≤ meanPy t
            (((List.range (ncolsPy t)).filter (fun j => p ≤ prevalencePy t j)).getD j 0)) := by
        refine List.filter_congr (fun j hj => ?_)
        rw [ncolsPy_selectColsPy] at hj
        rw [meanPy_selectColsPy _ t j (List.mem_range.mp hj)]
      rw [hprev, hmean,
        filter_after_select t (fun j => decide (m ≤ meanPy t j))
          (fun k => decide (p ≤ prevalencePy t k)),
        filter_after_select t (fun j => decide (p ≤ prevalencePy t j))
          (fun k => decide (m ≤ meanPy t k))]
      congr 1
      rw [List.filter_filter, List.filter_filter]
      exact List.filter_congr (fun j _ => by rw [Bool.and_comm])
    · rw [meanFilterPy_of_nonpos hm, meanFilterPy_of_nonpos hm]
  · by_cases hm : 0 < m
    · rw [prevalenceFilterPy_of_nonpos hp, prevalenceFilterPy_of_nonpos hp]
    · rw [meanFilterPy_of_nonpos hm, prevalenceFilterPy_of_nonpos hp,
        meanFilterPy_of_nonpos hm]

theorem c8_filter_commute_witness :
    prevalenceFilterPy ((1 : ℚ) / 2)
        (meanFilterPy ((1 : ℚ) / 4) ⟨["a", "b", "c"], ["A", "B"], [[1, 1], [1, 0], [1, 0]]⟩)
      = meanFilterPy ((1 : ℚ) / 4)
        (prevalenceFilterPy ((1 : ℚ) / 2) ⟨["a", "b", "c"], ["A", "B"], [[1, 1], [1, 0], [1, 0]]⟩) :=
  c8_filter_commute ⟨["a", "b", "c"], ["A", "B"], [[1, 1], [1, 0], [1, 0]]⟩ (1 / 2) (1 / 4)
    (by norm_num) (by norm_num) (by norm_num)

/-! ## C4 -/

theorem suffixMins_length (l : List ℚ) : (suffixMins l).length = l.length := by
  induction l with
  | nil => rfl
  | cons x rest ih =>
    simp only [suffixMins]
    cases h : suffixMins rest with
    | nil =>
      rw [h] at ih
      simp [← ih]
    | cons y t =>
      rw [h] at ih
      simpa using ih

theorem suffixMins_adjacent (l : List ℚ) (i : ℕ) (h : i + 1 < l.length) :
    (suffixMins l).getD i 0 ≤ (suffixMins l).getD (i + 1) 0 := by
  induction l generalizing i with
  | nil => simp at h
  | cons x rest ih =>
    simp only [suffixMins]
    cases hm : suffixMins rest with
    | nil =>
      have : rest.length = 0 := by rw [← suffixMins_length, hm]; rfl
      rw [List.length_cons, this] at h
      omega
    | cons y t =>
      cases i with
      | zero =>
        simpa using min_le_right x y
      | succ k =>
        have hk : k + 1 < rest.length := by
          rw [List.length_cons] at h
          omega
        have := ih k hk
        rw [hm] at this
        simpa [List.getD_cons_succ] using this

theorem suffixMins_mono (l : List ℚ) (i j : ℕ) (hij : i ≤ j) (hj : j < l.length) :
    (suffixMins l).getD i 0 ≤ (suffixMins l).getD j 0 := by
  induction j with
  | zero =>
    have : i = 0 := Nat.le_zero.mp hij
    rw [this]
  | succ k ih =>
    rcases Nat.lt_or_ge i (k + 1) with hlt | hge
    · exact le_trans (ih (Nat.lt_succ_iff.mp hlt) (Nat.lt_of_succ_lt hj))
        (suffixMins_adjacent l k hj)
    · have : i = k + 1 := le_antisymm hij hge
      rw [this]

/-- C4: in the Benjamini-Hochberg corrected output, a taxon with strictly
smaller raw p-value receives an FDR value no larger than that of a taxon
with a larger raw p-value, for any sorting permutation `σ` that `argsort`
may produce (a permutation of the positions putting the p-values in
ascending order). -/
theorem c4_fdr_monotone (pvals : List ℚ) (σ : List ℕ)
    (hperm : List.Perm σ (List.range pvals.length))
    (hsort : (σ.map (fun i => pvals.getD i 0)).Sorted (· ≤ ·))
    (a b : ℕ) (ha : a < pvals.length) (hb : b < pvals.length)
    (hab : pvals.getD a 0 < pvals.getD b 0) :
    (bhFdr pvals σ).getD a 0 ≤ (bhFdr pvals σ).getD b 0 := by
  have hσlen : σ.length = pvals.length := by
    rw [hperm.length_eq, List.length_range]
  have haσ : a ∈ σ := hperm.mem_iff.mpr (List.mem_range.mpr ha)
  have hbσ : b ∈ σ := hperm.mem_iff.mpr (List.mem_range.mpr hb)
  have hia : σ.indexOf a < σ.length := List.indexOf_lt_length.mpr haσ
  have hib : σ.indexOf b < σ.length := List.indexOf_lt_length.mpr hbσ
  have hgeta : σ.getD (σ.indexOf a) 0 = a := by
    rw [List.getD_eq_getElem σ 0 hia]
    exact List.getElem_indexOf hia
  have hgetb : σ.getD (σ.indexOf b) 0 = b := by
    rw [List.getD_eq_getElem σ 0 hib]
    exact List.getElem_indexOf hib
  -- the two scatter positions, ordered by the sortedness of the p-values
  have hlt : σ.indexOf a < σ.indexOf b := by
    by_contra hcon
    push_neg at hcon
    rcases Nat.lt_or_ge (σ.indexOf b) (σ.indexOf a) with hblt | hbge
    · have hrel := List.Sorted.rel_get_of_lt hsort
        (a := ⟨σ.indexOf b, by simpa using hib⟩)
        (b := ⟨σ.indexOf a, by simpa using hia⟩) (by simpa using hblt)
      rw [List.get_map, List.get_map] at hrel
      simp only [List.get_eq_getElem] at hrel
      rw [List.getElem_indexOf hib, List.getElem_indexOf hia] at hrel
      exact absurd hrel (not_le.mpr hab)
    · have heq : σ.indexOf a = σ.indexOf b := le_antisymm hbge hcon
      have hab' : a = b := by rw [← hgeta, heq, hgetb]
      rw [hab'] at hab
      exact lt_irrefl _ hab
  -- evaluate bhFdr at a and b
  have hval : ∀ c : ℕ, c < pvals.length →
      (bhFdr pvals σ).getD c 0 =
        (suffixMins ((List.range pvals.length).map
          (fun k => (σ.map (fun i => pvals.getD i 0)).getD k 0 * (pvals.length : ℚ)
            / ((k : ℚ) + 1)))).getD (σ.indexOf c) 0 := by
    intro c hc
    have hrc : (List.range pvals.length).getD c 0 = c := by
      rw [List.getD_eq_getElem _ 0 (by simpa using hc)]
      simp
    unfold bhFdr
    rw [getD_map_of_lt _ (List.range pvals.length) c 0 0 (by simpa using hc), hrc]
  rw [hval a ha, hval b hb]
  exact suffixMins_mono _ _ _ (le_of_lt hlt)
    (by
      rw [List.length_map, List.length_range]
      omega)

theorem c4_fdr_monotone_witness :
    (bhFdr [1 / 2, 1 / 4] [1, 0]).getD 1 0 ≤ (bhFdr [1 / 2, 1 / 4] [1, 0]).getD 0 0 :=
  c4_fdr_monotone [1 / 2, 1 / 4] [1, 0] (by decide)
    (by
      have hmap : ([1, 0] : List ℕ).map (fun i => ([1 / 2, 1 / 4] : List ℚ).getD i 0)
          = [1 / 4, 1 / 2] := by
        norm_num [List.getD]
      rw [hmap]
      refine List.sorted_cons.mpr ⟨?_, List.sorted_singleton _⟩
      intro c hc
      rw [List.mem_singleton.mp hc]
      norm_num)
    1 0 (by norm_num) (by norm_num) (by norm_num)

/-! ## C7 -/

theorem head?_dropWhile_false (p : Char → Bool) (l : List Char) :
    ∀ ch, (l.dropWhile p).head? = some ch → p ch = false := by
  induction l with
  | nil => intro ch hch; simp at hch
  | cons c r ih =>
    intro ch hch
    by_cases hc : p c
    · rw [List.dropWhile_cons_of_pos hc] at hch
      exact ih ch hch
    · rw [List.dropWhile_cons_of_neg hc] at hch
      simp only [List.head?_cons, Option.some_inj] at hch
      rw [← hch]
      simpa using hc

theorem rstripUnderscores_getLast (y : List Char) :
    ∀ ch, (rstripUnderscores y).getLast? = some ch → ch ≠ '_' := by
  intro ch hch
  unfold rstripUnderscores at hch
  rw [List.getLast?_reverse] at hch
  have := head?_dropWhile_false (fun c => c = '_') y.reverse ch hch
  simpa using this

theorem rstripUnderscores_of_getLast (l : List Char)
    (h : ∀ ch, l.getLast? = some ch → ch ≠ '_') : rstripUnderscores l = l := by
  unfold rstripUnderscores
  rcases hl : l.reverse with _ | ⟨c, r⟩
  · have : l = [] := by simpa using congrArg List.reverse hl
    rw [this]
    rfl
  · have hlast : l.getLast? = some c := by
      rw [← List.head?_reverse, hl]
      rfl
    have hc : (c = '_') = False := by simp [h c hlast]
    rw [List.dropWhile_cons_of_neg (by simp [hc])]
    rw [← hl, List.reverse_reverse]

theorem collapseGo_false_eq_nil (l : List Char) (h : collapseGo false l = []) : l = [] := by
  cases l with
  | nil => rfl
  | cons c r =>
    by_cases hsp : isPySpace c <;> simp [collapseGo, hsp] at h

theorem collapseGo_getLast (l : List Char) :
    ∀ b, (∀ ch, l.getLast? = some ch → ch ≠ '_') →
      ∀ ch, (collapseGo b l).getLast? = some ch → ch ≠ '_' := by
  induction l with
  | nil =>
    intro b _ ch hch
    simp [collapseGo] at hch
  | cons c rest ih =>
    intro b h ch hch
    have hrest : ∀ ch', rest.getLast? = some ch' → ch' ≠ '_' := by
      intro ch' hch'
      rcases rest with _ | ⟨d, r⟩
      · simp at hch'
      · exact h ch' (by rw [List.getLast?_cons_cons]; exact hch')
    by_cases hsp : isPySpace c
    · cases b with
      | true =>
        rw [show collapseGo true (c :: rest) = collapseGo true rest by
          simp [collapseGo, hsp]] at hch
        exact ih true hrest ch hch
      | false =>
        rw [show collapseGo false (c :: rest) = ' ' :: collapseGo true rest by
          simp [collapseGo, hsp]] at hch
        rcases hm : collapseGo true rest with _ | ⟨e, m'⟩
        · rw [hm] at hch
          simp at hch
          rw [← hch]
          decide
        · rw [hm, List.getLast?_cons_cons] at hch
          exact ih true hrest ch (by rw [hm]; exact hch)
    · rw [show collapseGo b (c :: rest) = c :: collapseGo false rest by
        cases b <;> simp [collapseGo, hsp]] at hch
      rcases hm : collapseGo false rest with _ | ⟨e, m'⟩
      · rw [hm] at hch
        simp at hch
        have hr : rest = [] := collapseGo_false_eq_nil rest hm
        rw [← hch]
        exact h c (by rw [hr]; rfl)
      · rw [hm, List.getLast?_cons_cons] at hch
        exact ih false hrest ch (by rw [hm]; exact hch)

theorem collapseGo_true_head (l : List Char) :
    ∀ ch, (collapseGo true l).head? = some ch → isPySpace ch = false := by
  induction l with
  | nil => intro ch hch; simp [collapseGo] at hch
  | cons c rest ih =>
    intro ch hch
    by_cases hsp : isPySpace c
    · rw [show collapseGo true (c :: rest) = collapseGo true rest by
        simp [collapseGo, hsp]] at hch
      exact ih ch hch
    · rw [show collapseGo true (c :: rest) = c :: collapseGo false rest by
        simp [collapseGo, hsp]] at hch
      simp only [List.head?_cons, Option.some_inj] at hch
      rw [← hch]
      simpa using hsp

theorem collapseGo_of_head_nonspace (b : Bool) (l : List Char)
    (hl : ∀ ch, l.head? = some ch → isPySpace ch = false) :
    collapseGo b l = collapseGo false l := by
  cases l with
  | nil => cases b <;> rfl
  | cons c r =>
    have hc : isPySpace c = false := hl c rfl
    cases b <;> simp [collapseGo, hc]

theorem collapseGo_idem (l : List Char) :
    ∀ b, collapseGo false (collapseGo b l) = collapseGo b l := by
  induction l with
  | nil => intro b; cases b <;> rfl
  | cons c rest ih =>
    intro b
    by_cases hsp : isPySpace c
    · cases b with
      | true =>
        rw [show collapseGo true (c :: rest) = collapseGo true rest by
          simp [collapseGo, hsp]]
        exact ih true
      | false =>
        rw [show collapseGo false (c :: rest) = ' ' :: collapseGo true rest by
          simp [collapseGo, hsp]]
        rw [show collapseGo false (' ' :: collapseGo true rest)
            = ' ' :: collapseGo true (collapseGo true rest) by
          simp [collapseGo, (by decide : isPySpace ' ' = true)]]
        rw [collapseGo_of_head_nonspace true _ (collapseGo_true_head rest), ih true]
    · rw [show collapseGo b (c :: rest) = c :: collapseGo false rest by
        cases b <;> simp [collapseGo, hsp]]
      rw [show collapseGo false (c :: collapseGo false rest)
          = c :: collapseGo false (collapseGo false rest) by
        simp [collapseGo, hsp]]
      rw [ih false]

theorem stripRankPfxs_id (c : List Char) (h : ∀ p ∈ rankPfxList, p.isPrefixOf c = false) :
    stripRankPfxs c = c := by
  have conv : ∀ p : List Char, p.isPrefixOf c = false → ¬ (p <+: c) := by
    intro p hp hpre
    have hiff : p.isPrefixOf c = true ↔ p <+: c := List.isPrefixOf_iff_prefix
    rw [hiff.mpr hpre] at hp
    simp at hp
  have h1 := conv _ (h ['d', '_', '_'] (by decide))
  have h2 := conv _ (h ['k', '_', '_'] (by decide))
  have h3 := conv _ (h ['p', '_', '_'] (by decide))
  have h4 := conv _ (h ['c', '_', '_'] (by decide))
  have h5 := conv _ (h ['o', '_', '_'] (by decide))
  have h6 := conv _ (h ['f', '_', '_'] (by decide))
  have h7 := conv _ (h ['g', '_', '_'] (by decide))
  have h8 := conv _ (h ['s', '_', '_'] (by decide))
  simp [stripRankPfxs, rankPfxList, rankPfxTable, h1, h2, h3, h4, h5, h6, h7, h8]

/-- C7 counterexample: the prefix-stripping loop tests each rank prefix once,
in dictionary order, so `"d__d__x"` cleans to `"d__x"` (the exposed second
`d__` is never retested), while re-cleaning `"d__x"` strips it to `"x"`. -/
theorem c7_clean_idempotent_counterexample :
    cleanName (cleanName ['d', '_', '_', 'd', '_', '_', 'x'])
      ≠ cleanName ['d', '_', '_', 'd', '_', '_', 'x'] := by
  decide

/-- C7 amended: re-cleaning an already-cleaned name returns it unchanged
provided the cleaned name does not itself start with a recognised rank prefix
and carries no leading or trailing whitespace (cleaning can produce both: a
second rank prefix exposed by the stripping loop, or an edge space exposed by
prefix/underscore stripping); the remaining stages (trailing underscores,
whitespace collapsing, the `Unclassified` fallback) are always stable. -/
theorem c7_clean_idempotent_amended (s : List Char)
    (hpfx : ∀ p ∈ rankPfxList, p.isPrefixOf (cleanName s) = false)
    (hws : pyStrip (cleanName s) = cleanName s) :
    cleanName (cleanName s) = cleanName s := by
  by_cases hcond : collapseWS (rstripUnderscores (stripRankPfxs (pyStrip s))) = []
      ∨ collapseWS (rstripUnderscores (stripRankPfxs (pyStrip s))) = ['_', '_']
  · have hu : cleanName s = unclassifiedLabel := by
      show (if collapseWS (rstripUnderscores (stripRankPfxs (pyStrip s))) = []
          ∨ collapseWS (rstripUnderscores (stripRankPfxs (pyStrip s))) = ['_', '_']
        then unclassifiedLabel
        else collapseWS (rstripUnderscores (stripRankPfxs (pyStrip s)))) = unclassifiedLabel
      rw [if_pos hcond]
    rw [hu]
    decide
  · have hc : cleanName s = collapseWS (rstripUnderscores (stripRankPfxs (pyStrip s))) := by
      show (if collapseWS (rstripUnderscores (stripRankPfxs (pyStrip s))) = []
          ∨ collapseWS (rstripUnderscores (stripRankPfxs (pyStrip s))) = ['_', '_']
        then unclassifiedLabel
        else collapseWS (rstripUnderscores (stripRankPfxs (pyStrip s))))
        = collapseWS (rstripUnderscores (stripRankPfxs (pyStrip s)))
      rw [if_neg hcond]
    have hlast : ∀ ch, (cleanName s).getLast? = some ch → ch ≠ '_' := by
      intro ch hch
      rw [hc] at hch
      exact collapseGo_getLast _ false
        (rstripUnderscores_getLast (stripRankPfxs (pyStrip s))) ch hch
    have h3 : rstripUnderscores (cleanName s) = cleanName s :=
      rstripUnderscores_of_getLast _ hlast
    have h4 : collapseWS (cleanName s) = cleanName s := by
      rw [hc]
      exact collapseGo_idem _ false
    have h2 : stripRankPfxs (cleanName s) = cleanName s := stripRankPfxs_id _ hpfx
    have hnotnil : cleanName s ≠ [] := by
      rw [hc]
      intro hnil
      exact hcond (Or.inl hnil)
    have hnotuu : cleanName s ≠ ['_', '_'] := by
      rw [hc]
      intro huu
      exact hcond (Or.inr huu)
    show (if collapseWS (rstripUnderscores (stripRankPfxs (pyStrip (cleanName s)))) = []
        ∨ collapseWS (rstripUnderscores (stripRankPfxs (pyStrip (cleanName s)))) = ['_', '_']
      then unclassifiedLabel
      else collapseWS (rstripUnderscores (stripRankPfxs (pyStrip (cleanName s)))))
      = cleanName s
    rw [hws, h2, h3, h4, if_neg (by
      intro hor
      rcases hor with hnil | huu
      · exact hnotnil hnil
      · exact hnotuu huu)]

theorem c7_clean_idempotent_amended_witness :
    cleanName (cleanName ['g', '_', '_', 'L', 'a', 'c', 't', 'o', '_'])
      = cleanName ['g', '_', '_', 'L', 'a', 'c', 't', 'o', '_'] :=
  c7_clean_idempotent_amended ['g', '_', '_', 'L', 'a', 'c', 't', 'o', '_']
    (by decide) (by decide)
